import Mathlib

/-!
Verification of the strip-reconstruction program (`image_reconstruction.py`).

The core ordering and compositing logic is embedded shallowly:

* `Pixel` / `Strip` model the pixel and strip data; the `id` field of `Strip`
  models Python object identity (distinct loaded `Image` objects compare
  unequal under the default `==`/`!=` even when their pixel data coincide,
  and `list.remove` / the `other != candidate` filter use that identity).
* `rows_comparison`, `find_bottom_strip`, `find_most_similar_strip_for_upwards`,
  `build_from_bottom` and `merge_ordered_strips` are direct translations of
  the Python functions of the same names.  Python exceptions (`ValueError`
  from `min()` on an empty sequence or from `list.remove`) are modelled with
  `Except Unit`; the `float("inf")` initial best distance is modelled as
  `none`; the in-place mutation of the caller's strip list by
  `build_from_bottom` is modelled by returning the final state of that list
  as the second component of the result.
-/

/-- A pixel: a triple of integer colour channels, as exposed by the external
image collaborator (`get_r` / `get_g` / `get_b`). -/
structure Pixel where
  r : Int
  g : Int
  b : Int
deriving DecidableEq

def Pixel.get_r (p : Pixel) : Int := p.r

def Pixel.get_g (p : Pixel) : Int := p.g

def Pixel.get_b (p : Pixel) : Int := p.b

/-- A strip: an image fragment with row-major pixel rows (`pixels`), plus an
`id` modelling Python object identity (see the module docstring). -/
structure Strip where
  id : Nat
  pixels : List (List Pixel)
deriving DecidableEq

/-- Modelled from the spec: the external image abstraction exposes a height
query; for a row-major pixel grid it is the number of rows. -/
def Strip.get_height (s : Strip) : Nat := s.pixels.length

/-- Modelled from the spec: the external image abstraction exposes a width
query; for a row-major pixel grid it is the length of a row (all rows of an
image have equal length; we read the first). -/
def Strip.get_width (s : Strip) : Nat := (s.pixels.headD []).length

/-- Modelled from the spec: row-major pixel access `strip.get_pixel(row, col)`
returning an RGB triple.  Defined on valid coordinates; out of range it
returns a default pixel (Python would raise, which no verified statement
exercises). -/
def Strip.get_pixel (s : Strip) (row col : Nat) : Pixel :=
  (s.pixels.getD row []).getD col ⟨0, 0, 0⟩

/-- `strip.pixels[0]`: the first (top) pixel row.  Defined on strips with at
least one row (Python raises `IndexError` on an empty `pixels`, which no
verified statement exercises). -/
def Strip.topRow (s : Strip) : List Pixel := s.pixels.headD []

/-- `strip.pixels[-1]`: the last (bottom) pixel row, with the same caveat as
`Strip.topRow`. -/
def Strip.bottomRow (s : Strip) : List Pixel := s.pixels.getLastD []

/-- The per-pixel summand of `rows_comparison`:
`(p1.get_r() - p2.get_r())**2 + (p1.get_g() - p2.get_g())**2 + (p1.get_b() - p2.get_b())**2`. -/
def pixelDiff (p1 p2 : Pixel) : Int :=
  (p1.get_r - p2.get_r) ^ 2 + (p1.get_g - p2.get_g) ^ 2 + (p1.get_b - p2.get_b) ^ 2

/-- `rows_comparison(rowA, rowB)`: the sum over `zip(rowA, rowB)` of squared
per-channel differences.  Python's `zip` truncates to the shorter row. -/
def rows_comparison (rowA rowB : List Pixel) : Int :=
  ((rowA.zip rowB).map (fun pq => pixelDiff pq.1 pq.2)).sum

theorem pixelDiff_comm (p1 p2 : Pixel) : pixelDiff p1 p2 = pixelDiff p2 p1 := by
  unfold pixelDiff Pixel.get_r Pixel.get_g Pixel.get_b
  ring

theorem pixelDiff_nonneg (p1 p2 : Pixel) : 0 ≤ pixelDiff p1 p2 := by
  unfold pixelDiff
  have h1 := sq_nonneg (p1.get_r - p2.get_r)
  have h2 := sq_nonneg (p1.get_g - p2.get_g)
  have h3 := sq_nonneg (p1.get_b - p2.get_b)
  omega

theorem pixelDiff_eq_zero_iff (p1 p2 : Pixel) : pixelDiff p1 p2 = 0 ↔ p1 = p2 := by
  unfold pixelDiff
  have h1 := sq_nonneg (p1.get_r - p2.get_r)
  have h2 := sq_nonneg (p1.get_g - p2.get_g)
  have h3 := sq_nonneg (p1.get_b - p2.get_b)
  constructor
  · intro h
    have e1 : (p1.get_r - p2.get_r) ^ 2 = 0 := by omega
    have e2 : (p1.get_g - p2.get_g) ^ 2 = 0 := by omega
    have e3 : (p1.get_b - p2.get_b) ^ 2 = 0 := by omega
    have f1 := sq_eq_zero_iff.mp e1
    have f2 := sq_eq_zero_iff.mp e2
    have f3 := sq_eq_zero_iff.mp e3
    cases p1
    cases p2
    simp only [Pixel.get_r, Pixel.get_g, Pixel.get_b, Pixel.mk.injEq] at f1 f2 f3 ⊢
    omega
  · intro h
    subst h
    simp

theorem rows_comparison_comm (rowA rowB : List Pixel) :
    rows_comparison rowA rowB = rows_comparison rowB rowA := by
  induction rowA generalizing rowB with
  | nil => cases rowB <;> simp [rows_comparison]
  | cons a as ih =>
    cases rowB with
    | nil => simp [rows_comparison]
    | cons b bs =>
      simp only [rows_comparison, List.zip_cons_cons, List.map_cons, List.sum_cons] at *
      rw [pixelDiff_comm, ih bs]

theorem rows_comparison_nonneg (rowA rowB : List Pixel) : 0 ≤ rows_comparison rowA rowB := by
  induction rowA generalizing rowB with
  | nil => simp [rows_comparison]
  | cons a as ih =>
    cases rowB with
    | nil => simp [rows_comparison]
    | cons b bs =>
      simp only [rows_comparison, List.zip_cons_cons, List.map_cons, List.sum_cons] at *
      have := pixelDiff_nonneg a b
      have := ih bs
      omega

theorem rows_comparison_eq_zero_iff (rowA rowB : List Pixel)
    (hlen : rowA.length = rowB.length) :
    rows_comparison rowA rowB = 0 ↔ rowA = rowB := by
  induction rowA generalizing rowB with
  | nil =>
    cases rowB with
    | nil => simp [rows_comparison]
    | cons b bs => simp at hlen
  | cons a as ih =>
    cases rowB with
    | nil => simp at hlen
    | cons b bs =>
      simp only [List.length_cons, Nat.add_right_cancel_iff] at hlen
      simp only [rows_comparison, List.zip_cons_cons, List.map_cons, List.sum_cons]
      have hd := pixelDiff_nonneg a b
      have ht := rows_comparison_nonneg as bs
      have hrec := ih bs hlen
      simp only [rows_comparison] at hrec ht
      constructor
      · intro h
        have hz : pixelDiff a b = 0 := by omega
        have hz2 : ((as.zip bs).map (fun pq => pixelDiff pq.1 pq.2)).sum = 0 := by omega
        have := (pixelDiff_eq_zero_iff a b).mp hz
        have := hrec.mp hz2
        simp [*]
      · intro h
        injection h with h1 h2
        subst h1
        subst h2
        have : pixelDiff a a = 0 := (pixelDiff_eq_zero_iff a a).mpr rfl
        have : ((as.zip as).map (fun pq => pixelDiff pq.1 pq.2)).sum = 0 := hrec.mpr rfl
        omega

/-- Claim C7 (corrected part): symmetry holds for all rows, and for rows of
equal length the distance is zero exactly when the rows are pixel-identical. -/
theorem rows_comparison_symm_zero (rowA rowB : List Pixel) :
    rows_comparison rowA rowB = rows_comparison rowB rowA ∧
    (rowA.length = rowB.length → (rows_comparison rowA rowB = 0 ↔ rowA = rowB)) :=
  ⟨rows_comparison_comm rowA rowB, fun h => rows_comparison_eq_zero_iff rowA rowB h⟩

/-- Claim C7, counterexample: as stated over all pixel rows, "distance zero
exactly when pixel-identical" fails, because `zip` truncates to the shorter
row: the empty row and a one-pixel row have distance `0` without being
identical. -/
theorem rows_comparison_zero_not_identical :
    rows_comparison [] [Pixel.mk 0 0 0] = 0 ∧ ([] : List Pixel) ≠ [Pixel.mk 0 0 0] := by
  constructor
  · rfl
  · intro h
    exact List.cons_ne_nil _ _ h.symm

/-- Claim C7, witness: concrete equal-length rows on which the amended
statement is exercised. -/
theorem rows_comparison_symm_zero_witness :
    rows_comparison [Pixel.mk 1 2 3] [Pixel.mk 1 2 3] =
      rows_comparison [Pixel.mk 1 2 3] [Pixel.mk 1 2 3] ∧
    (rows_comparison [Pixel.mk 1 2 3] [Pixel.mk 1 2 3] = 0 ↔
      [Pixel.mk 1 2 3] = [Pixel.mk 1 2 3]) :=
  ⟨(rows_comparison_symm_zero [Pixel.mk 1 2 3] [Pixel.mk 1 2 3]).1,
   (rows_comparison_symm_zero [Pixel.mk 1 2 3] [Pixel.mk 1 2 3]).2 rfl⟩

/-- Claim C9: `rows_comparison` on rows of any (possibly differing) lengths
equals the sum of per-channel squared differences over the first
`min (length rowA) (length rowB)` index-aligned positions. -/
theorem rows_comparison_truncates (rowA rowB : List Pixel) :
    rows_comparison rowA rowB =
      ((List.range (min rowA.length rowB.length)).map
        (fun i => pixelDiff (rowA.getD i ⟨0, 0, 0⟩) (rowB.getD i ⟨0, 0, 0⟩))).sum := by
  induction rowA generalizing rowB with
  | nil => simp [rows_comparison]
  | cons a as ih =>
    cases rowB with
    | nil => simp [rows_comparison]
    | cons b bs =>
      have hmin : min (a :: as).length (b :: bs).length = min as.length bs.length + 1 := by
        simp only [List.length_cons]
        omega
      rw [hmin, List.range_succ_eq_map]
      simp only [rows_comparison, List.zip_cons_cons, List.map_cons, List.sum_cons,
        List.map_map, List.getD_cons_zero]
      have : ((List.range (min as.length bs.length)).map
          ((fun i => pixelDiff ((a :: as).getD i ⟨0, 0, 0⟩) ((b :: bs).getD i ⟨0, 0, 0⟩)) ∘
            Nat.succ)).sum =
          ((List.range (min as.length bs.length)).map
            (fun i => pixelDiff (as.getD i ⟨0, 0, 0⟩) (bs.getD i ⟨0, 0, 0⟩))).sum := by
        congr 1
      rw [this]
      have hrec := ih bs
      simp only [rows_comparison] at hrec
      omega

/-- The loop body of `find_most_similar_strip_for_upwards`: the running pair
`(best_match, best_distance)` starts at `(None, float("inf"))`; the infinite
initial distance is modelled as `none`.  A candidate replaces the running
best exactly when its distance is strictly smaller (`<`). -/
def upStep (current_top_row : List Pixel) (acc : Option Strip × Option Int)
    (candidate : Strip) : Option Strip × Option Int :=
  let distance := rows_comparison current_top_row candidate.bottomRow
  match acc with
  | (_, none) => (some candidate, some distance)
  | (best_match, some best_distance) =>
    if distance < best_distance then (some candidate, some distance)
    else (best_match, some best_distance)

/-- `find_most_similar_strip_for_upwards(current_top_strip, candidate_strips)`:
scan the candidates, keeping the one whose bottom row is closest (by
`rows_comparison`) to the current top strip's top row; return `None` for an
empty pool. -/
def find_most_similar_strip_for_upwards (current_top_strip : Strip)
    (candidate_strips : List Strip) : Option Strip :=
  (candidate_strips.foldl (upStep current_top_strip.topRow) (none, none)).1

/-- Characterisation of the scanning loop of
`find_most_similar_strip_for_upwards` from a running best `(some b, some w)`:
either no candidate beats `w` and the accumulator survives, or the result is
the first candidate attaining the strict minimum. -/
theorem upFold_go (row : List Pixel) (l : List Strip) :
    ∀ (b : Strip) (w : Int),
    ∃ p : Strip × Int,
      l.foldl (upStep row) (some b, some w) = (some p.1, some p.2) ∧
      ((p.1 = b ∧ p.2 = w ∧ ∀ c ∈ l, w ≤ rows_comparison row c.bottomRow) ∨
       (∃ (i : Nat) (hi : i < l.length),
          p.1 = l.get ⟨i, hi⟩ ∧
          p.2 = rows_comparison row (l.get ⟨i, hi⟩).bottomRow ∧
          p.2 < w ∧
          (∀ (j : Nat) (hj : j < i),
            p.2 < rows_comparison row (l.get ⟨j, Nat.lt_trans hj hi⟩).bottomRow) ∧
          (∀ (k : Nat) (hk : k < l.length), i < k →
            p.2 ≤ rows_comparison row (l.get ⟨k, hk⟩).bottomRow))) := by
  induction l with
  | nil =>
    intro b w
    exact ⟨(b, w), rfl, Or.inl ⟨rfl, rfl, by simp⟩⟩
  | cons c rest ih =>
    intro b w
    simp only [List.foldl_cons]
    by_cases hd : rows_comparison row c.bottomRow < w
    · have hstep : upStep row (some b, some w) c =
          (some c, some (rows_comparison row c.bottomRow)) := by
        simp [upStep, hd]
      rw [hstep]
      obtain ⟨p, hfold, hcase⟩ := ih c (rows_comparison row c.bottomRow)
      refine ⟨p, hfold, Or.inr ?_⟩
      rcases hcase with ⟨h1, h2, h3⟩ | ⟨i0, hi0, h1, h2, h3, h4, h5⟩
      · refine ⟨0, Nat.succ_pos _, h1, ?_, ?_, ?_, ?_⟩
        · exact h2
        · rw [h2]; exact hd
        · intro j hj; exact absurd hj (Nat.not_lt_zero j)
        · intro k hk hk0
          cases k with
          | zero => exact absurd hk0 (lt_irrefl 0)
          | succ k0 =>
            rw [h2]
            exact h3 _ (List.get_mem rest k0 (Nat.lt_of_succ_lt_succ hk))
      · refine ⟨i0 + 1, Nat.succ_lt_succ hi0, h1, h2, ?_, ?_, ?_⟩
        · exact lt_trans h3 hd
        · intro j hj
          cases j with
          | zero => exact h3
          | succ j0 => exact h4 j0 (Nat.lt_of_succ_lt_succ hj)
        · intro k hk hik
          cases k with
          | zero => exact absurd hik (Nat.not_lt_zero _)
          | succ k0 =>
            exact h5 k0 (Nat.lt_of_succ_lt_succ hk) (Nat.lt_of_succ_lt_succ hik)
    · have hstep : upStep row (some b, some w) c = (some b, some w) := by
        simp [upStep, hd]
      rw [hstep]
      obtain ⟨p, hfold, hcase⟩ := ih b w
      refine ⟨p, hfold, ?_⟩
      rcases hcase with ⟨h1, h2, h3⟩ | ⟨i0, hi0, h1, h2, h3, h4, h5⟩
      · refine Or.inl ⟨h1, h2, ?_⟩
        intro x hx
        rcases List.mem_cons.mp hx with hx | hx
        · subst hx; exact not_lt.mp hd
        · exact h3 x hx
      · refine Or.inr ⟨i0 + 1, Nat.succ_lt_succ hi0, h1, h2, h3, ?_, ?_⟩
        · intro j hj
          cases j with
          | zero => exact lt_of_lt_of_le h3 (not_lt.mp hd)
          | succ j0 => exact h4 j0 (Nat.lt_of_succ_lt_succ hj)
        · intro k hk hik
          cases k with
          | zero => exact absurd hik (Nat.not_lt_zero _)
          | succ k0 =>
            exact h5 k0 (Nat.lt_of_succ_lt_succ hk) (Nat.lt_of_succ_lt_succ hik)

/-- On a non-empty candidate pool the upward matcher returns the first
candidate attaining the minimum distance to the current strip's top row. -/
theorem find_most_aux (cur : Strip) (cands : List Strip) (hne : cands ≠ []) :
    ∃ (i : Nat) (hi : i < cands.length),
      find_most_similar_strip_for_upwards cur cands = some (cands.get ⟨i, hi⟩) ∧
      (∀ (j : Nat) (hj : j < cands.length),
        rows_comparison cur.topRow (cands.get ⟨i, hi⟩).bottomRow ≤
          rows_comparison cur.topRow (cands.get ⟨j, hj⟩).bottomRow) ∧
      (∀ (j : Nat) (hj : j < i),
        rows_comparison cur.topRow (cands.get ⟨i, hi⟩).bottomRow <
          rows_comparison cur.topRow (cands.get ⟨j, Nat.lt_trans hj hi⟩).bottomRow) := by
  obtain ⟨c0, rest, rfl⟩ := List.exists_cons_of_ne_nil hne
  unfold find_most_similar_strip_for_upwards
  rw [List.foldl_cons]
  have hstep : upStep cur.topRow (none, none) c0 =
      (some c0, some (rows_comparison cur.topRow c0.bottomRow)) := rfl
  rw [hstep]
  obtain ⟨p, hfold, hcase⟩ := upFold_go cur.topRow rest c0 (rows_comparison cur.topRow c0.bottomRow)
  rw [hfold]
  rcases hcase with ⟨h1, h2, h3⟩ | ⟨i0, hi0, h1, h2, h3, h4, h5⟩
  · refine ⟨0, Nat.succ_pos _, by simp [h1], ?_, ?_⟩
    · intro j hj
      cases j with
      | zero => exact le_refl _
      | succ j0 => exact h3 _ (List.get_mem rest j0 (Nat.lt_of_succ_lt_succ hj))
    · intro j hj; exact absurd hj (Nat.not_lt_zero j)
  · refine ⟨i0 + 1, Nat.succ_lt_succ hi0, by simp [h1], ?_, ?_⟩
    · intro j hj
      cases j with
      | zero => exact le_of_lt (h2 ▸ h3)
      | succ j0 =>
        have hj0 : j0 < rest.length := Nat.lt_of_succ_lt_succ hj
        rcases lt_trichotomy j0 i0 with hlt | heq | hgt
        · exact le_of_lt (h2 ▸ h4 j0 hlt)
        · subst heq; exact le_refl _
        · exact h2 ▸ h5 j0 hj0 hgt
    · intro j hj
      cases j with
      | zero => exact h2 ▸ h3
      | succ j0 => exact h2 ▸ h4 j0 (Nat.lt_of_succ_lt_succ hj)

/-- Claim C4: for every current top strip and non-empty candidate pool,
`find_most_similar_strip_for_upwards` returns the candidate whose last pixel
row has minimum `rows_comparison` to the current strip's first pixel row, and
on exact ties the earliest-enumerated candidate is kept (strict `<` against
the running best distance). -/
theorem find_most_similar_strip_for_upwards_spec (cur : Strip) (cands : List Strip)
    (hne : cands ≠ []) (hcur : cur.pixels ≠ []) (hpx : ∀ s ∈ cands, s.pixels ≠ []) :
    ∃ (i : Nat) (hi : i < cands.length),
      find_most_similar_strip_for_upwards cur cands = some (cands.get ⟨i, hi⟩) ∧
      (∀ (j : Nat) (hj : j < cands.length),
        rows_comparison cur.topRow (cands.get ⟨i, hi⟩).bottomRow ≤
          rows_comparison cur.topRow (cands.get ⟨j, hj⟩).bottomRow) ∧
      (∀ (j : Nat) (hj : j < i),
        rows_comparison cur.topRow (cands.get ⟨i, hi⟩).bottomRow <
          rows_comparison cur.topRow (cands.get ⟨j, Nat.lt_trans hj hi⟩).bottomRow) :=
  find_most_aux cur cands hne

/-- Claim C4, witness: a pool of two one-row strips; the second has the
strictly smaller distance to the current top row. -/
theorem find_most_similar_strip_for_upwards_spec_witness :
    (([⟨10, [[⟨255, 255, 255⟩]]⟩, ⟨11, [[⟨0, 0, 0⟩]]⟩] : List Strip) ≠ [] ∧
      (⟨9, [[⟨0, 0, 0⟩]]⟩ : Strip).pixels ≠ [] ∧
      ∀ s ∈ ([⟨10, [[⟨255, 255, 255⟩]]⟩, ⟨11, [[⟨0, 0, 0⟩]]⟩] : List Strip), s.pixels ≠ []) ∧
    ∃ (i : Nat) (hi : i < ([⟨10, [[⟨255, 255, 255⟩]]⟩, ⟨11, [[⟨0, 0, 0⟩]]⟩] : List Strip).length),
      find_most_similar_strip_for_upwards ⟨9, [[⟨0, 0, 0⟩]]⟩
          [⟨10, [[⟨255, 255, 255⟩]]⟩, ⟨11, [[⟨0, 0, 0⟩]]⟩] =
        some (([⟨10, [[⟨255, 255, 255⟩]]⟩, ⟨11, [[⟨0, 0, 0⟩]]⟩] : List Strip).get ⟨i, hi⟩) ∧
      (∀ (j : Nat) (hj : j < ([⟨10, [[⟨255, 255, 255⟩]]⟩, ⟨11, [[⟨0, 0, 0⟩]]⟩] : List Strip).length),
        rows_comparison (Strip.topRow ⟨9, [[⟨0, 0, 0⟩]]⟩)
            (([⟨10, [[⟨255, 255, 255⟩]]⟩, ⟨11, [[⟨0, 0, 0⟩]]⟩] : List Strip).get ⟨i, hi⟩).bottomRow ≤
          rows_comparison (Strip.topRow ⟨9, [[⟨0, 0, 0⟩]]⟩)
            (([⟨10, [[⟨255, 255, 255⟩]]⟩, ⟨11, [[⟨0, 0, 0⟩]]⟩] : List Strip).get ⟨j, hj⟩).bottomRow) ∧
      (∀ (j : Nat) (hj : j < i),
        rows_comparison (Strip.topRow ⟨9, [[⟨0, 0, 0⟩]]⟩)
            (([⟨10, [[⟨255, 255, 255⟩]]⟩, ⟨11, [[⟨0, 0, 0⟩]]⟩] : List Strip).get ⟨i, hi⟩).bottomRow <
          rows_comparison (Strip.topRow ⟨9, [[⟨0, 0, 0⟩]]⟩)
            (([⟨10, [[⟨255, 255, 255⟩]]⟩, ⟨11, [[⟨0, 0, 0⟩]]⟩] : List Strip).get
              ⟨j, Nat.lt_trans hj hi⟩).bottomRow) :=
  ⟨⟨by decide, by decide, by decide⟩,
   find_most_similar_strip_for_upwards_spec ⟨9, [[⟨0, 0, 0⟩]]⟩
     [⟨10, [[⟨255, 255, 255⟩]]⟩, ⟨11, [[⟨0, 0, 0⟩]]⟩] (by decide) (by decide) (by decide)⟩

/-- Claim C6: called with an empty candidate pool, the upward matcher returns
the "no match" sentinel `none`; it is a total function in this model (no
fault is raised: the loop simply never runs and `best_match` stays `None`). -/
theorem find_most_similar_strip_for_upwards_empty (current_top_strip : Strip) :
    find_most_similar_strip_for_upwards current_top_strip [] = none := rfl

/-- The candidate's best match score in `find_bottom_strip`:
`min(rows_comparison(bottom_row, other.pixels[0]) for other in strips if other != candidate)`.
Python's `min` raises `ValueError` on an empty sequence; that is modelled by
`none` (the caller turns it into an error). -/
def bestMatchScore (strips : List Strip) (candidate : Strip) : Option Int :=
  ((strips.filter (fun other => other ≠ candidate)).map
    (fun other => rows_comparison candidate.bottomRow other.topRow)).min?

/-- The loop body of `find_bottom_strip`: track `(best_strip, worst_match_score)`
starting from `(None, -1)`; a candidate replaces the running pair exactly when
its best match score is strictly greater (`>`).  A `ValueError` from the inner
`min` aborts the whole computation. -/
def selectStep (strips : List Strip) (acc : Except Unit (Option Strip × Int))
    (candidate : Strip) : Except Unit (Option Strip × Int) :=
  match acc with
  | Except.error e => Except.error e
  | Except.ok (best_strip, worst_match_score) =>
    match bestMatchScore strips candidate with
    | none => Except.error ()
    | some best_match_score =>
      if best_match_score > worst_match_score then Except.ok (some candidate, best_match_score)
      else Except.ok (best_strip, worst_match_score)

/-- `find_bottom_strip(strips)`: select the strip whose best match score is
the worst (maximal), i.e. the strip least likely to have anything below it. -/
def find_bottom_strip (strips : List Strip) : Except Unit (Option Strip) :=
  Except.map Prod.fst (strips.foldl (selectStep strips) (Except.ok (none, -1)))

/-- With at least two pairwise-distinct strips, every candidate's pool of
"other" strips is non-empty, so its best match score exists and is
non-negative. -/
theorem bestMatchScore_pos (strips : List Strip) (h2 : 2 ≤ strips.length)
    (hnd : strips.Nodup) :
    ∀ c : Strip, ∃ s, bestMatchScore strips c = some s ∧ 0 ≤ s := by
  intro c
  have hne : strips.filter (fun other => other ≠ c) ≠ [] := by
    match strips, h2 with
    | a :: b :: t, _ =>
      have hab : a ≠ b := by
        have := List.nodup_cons.mp hnd
        intro h
        exact this.1 (h ▸ List.mem_cons_self b t)
      by_cases hac : a = c
      · have hbc : b ≠ c := fun h => hab (hac.trans h.symm)
        exact List.ne_nil_of_mem (List.mem_filter.mpr ⟨List.mem_cons_of_mem a (List.mem_cons_self b t), by simp [hbc]⟩)
      · exact List.ne_nil_of_mem (List.mem_filter.mpr ⟨List.mem_cons_self a (b :: t), by simp [hac]⟩)
  have hmapne : (strips.filter (fun other => other ≠ c)).map
      (fun other => rows_comparison c.bottomRow other.topRow) ≠ [] := by
    intro h
    exact hne (List.map_eq_nil.mp h)
  cases hm : ((strips.filter (fun other => other ≠ c)).map
      (fun other => rows_comparison c.bottomRow other.topRow)).min? with
  | none => exact absurd (List.min?_eq_none_iff.mp hm) hmapne
  | some s =>
    refine ⟨s, hm, ?_⟩
    have hmem := List.min?_mem (fun a b => min_choice a b) hm
    obtain ⟨o, _, ho⟩ := List.mem_map.mp hmem
    exact ho ▸ rows_comparison_nonneg _ _

/-- Characterisation of the scanning loop of `find_bottom_strip` from a
running pair `(b, w)`: either no candidate's score strictly exceeds `w` and
the accumulator survives, or the result is the first candidate attaining the
strict maximum of the scores. -/
theorem bottomFold_go (strips : List Strip)
    (hsome : ∀ c : Strip, ∃ s, bestMatchScore strips c = some s) (l : List Strip) :
    ∀ (b : Option Strip) (w : Int),
    ∃ res : Option Strip × Int,
      l.foldl (selectStep strips) (Except.ok (b, w)) = Except.ok res ∧
      ((res = (b, w) ∧ ∀ c ∈ l, ∀ s, bestMatchScore strips c = some s → s ≤ w) ∨
       (∃ (i : Nat) (hi : i < l.length) (si : Int),
          res = (some (l.get ⟨i, hi⟩), si) ∧
          bestMatchScore strips (l.get ⟨i, hi⟩) = some si ∧
          w < si ∧
          (∀ (j : Nat) (hj : j < i) (sj : Int),
            bestMatchScore strips (l.get ⟨j, Nat.lt_trans hj hi⟩) = some sj → sj < si) ∧
          (∀ (k : Nat) (hk : k < l.length), i < k → ∀ sk,
            bestMatchScore strips (l.get ⟨k, hk⟩) = some sk → sk ≤ si))) := by
  induction l with
  | nil =>
    intro b w
    exact ⟨(b, w), rfl, Or.inl ⟨rfl, by simp⟩⟩
  | cons c rest ih =>
    intro b w
    obtain ⟨sc, hsc⟩ := hsome c
    simp only [List.foldl_cons]
    by_cases hgt : sc > w
    · have hstep : selectStep strips (Except.ok (b, w)) c = Except.ok (some c, sc) := by
        simp [selectStep, hsc, hgt]
      rw [hstep]
      obtain ⟨res, hfold, hcase⟩ := ih (some c) sc
      refine ⟨res, hfold, Or.inr ?_⟩
      rcases hcase with ⟨h1, h2⟩ | ⟨i0, hi0, si, h1, h2, h3, h4, h5⟩
      · refine ⟨0, Nat.succ_pos _, sc, by simpa using h1, hsc, hgt, ?_, ?_⟩
        · intro j hj; exact absurd hj (Nat.not_lt_zero j)
        · intro k hk hk0 sk hsk
          cases k with
          | zero => exact absurd hk0 (lt_irrefl 0)
          | succ k0 =>
            exact h2 _ (List.get_mem rest k0 (Nat.lt_of_succ_lt_succ hk)) sk hsk
      · refine ⟨i0 + 1, Nat.succ_lt_succ hi0, si, by simpa using h1, h2, lt_trans hgt h3, ?_, ?_⟩
        · intro j hj sj hsj
          cases j with
          | zero =>
            have hsj2 : bestMatchScore strips c = some sj := hsj
            have hsjsc : sj = sc := Option.some.inj (hsj2.symm.trans hsc)
            rw [hsjsc]
            exact h3
          | succ j0 => exact h4 j0 (Nat.lt_of_succ_lt_succ hj) sj hsj
        · intro k hk hik sk hsk
          cases k with
          | zero => exact absurd hik (Nat.not_lt_zero _)
          | succ k0 =>
            exact h5 k0 (Nat.lt_of_succ_lt_succ hk) (Nat.lt_of_succ_lt_succ hik) sk hsk
    · have hstep : selectStep strips (Except.ok (b, w)) c = Except.ok (b, w) := by
        simp [selectStep, hsc, hgt]
      rw [hstep]
      obtain ⟨res, hfold, hcase⟩ := ih b w
      refine ⟨res, hfold, ?_⟩
      rcases hcase with ⟨h1, h2⟩ | ⟨i0, hi0, si, h1, h2, h3, h4, h5⟩
      · refine Or.inl ⟨h1, ?_⟩
        intro x hx sx hsx
        rcases List.mem_cons.mp hx with hx | hx
        · subst hx
          have hsxsc : sx = sc := Option.some.inj (hsx.symm.trans hsc)
          rw [hsxsc]
          exact not_lt.mp hgt
        · exact h2 x hx sx hsx
      · refine Or.inr ⟨i0 + 1, Nat.succ_lt_succ hi0, si, by simpa using h1, h2, h3, ?_, ?_⟩
        · intro j hj sj hsj
          cases j with
          | zero =>
            have hsj2 : bestMatchScore strips c = some sj := hsj
            have hsjsc : sj = sc := Option.some.inj (hsj2.symm.trans hsc)
            rw [hsjsc]
            exact lt_of_le_of_lt (not_lt.mp hgt) h3
          | succ j0 => exact h4 j0 (Nat.lt_of_succ_lt_succ hj) sj hsj
        · intro k hk hik sk hsk
          cases k with
          | zero => exact absurd hik (Nat.not_lt_zero _)
          | succ k0 =>
            exact h5 k0 (Nat.lt_of_succ_lt_succ hk) (Nat.lt_of_succ_lt_succ hik) sk hsk

/-- With at least two pairwise-distinct strips, `find_bottom_strip` succeeds
and returns the first strip attaining the maximal best match score. -/
theorem find_bottom_aux (strips : List Strip) (h2 : 2 ≤ strips.length)
    (hnd : strips.Nodup) :
    ∃ (i : Nat) (hi : i < strips.length) (si : Int),
      find_bottom_strip strips = Except.ok (some (strips.get ⟨i, hi⟩)) ∧
      bestMatchScore strips (strips.get ⟨i, hi⟩) = some si ∧
      (∀ (j : Nat) (hj : j < strips.length) (sj : Int),
        bestMatchScore strips (strips.get ⟨j, hj⟩) = some sj → sj ≤ si) ∧
      (∀ (j : Nat) (hj : j < i) (sj : Int),
        bestMatchScore strips (strips.get ⟨j, Nat.lt_trans hj hi⟩) = some sj → sj < si) := by
  have hpos := bestMatchScore_pos strips h2 hnd
  have hsome : ∀ c : Strip, ∃ s, bestMatchScore strips c = some s :=
    fun c => (hpos c).imp (fun s h => h.1)
  obtain ⟨res, hfold, hcase⟩ := bottomFold_go strips hsome strips none (-1)
  rcases hcase with ⟨h1, h2b⟩ | ⟨i, hi, si, h1, h2b, h3, h4, h5⟩
  · exfalso
    match strips, h2 with
    | a :: t, _ =>
      obtain ⟨sa, hsa, hsa0⟩ := hpos a
      have := h2b a (List.mem_cons_self a t) sa hsa
      omega
  · refine ⟨i, hi, si, ?_, h2b, ?_, h4⟩
    · unfold find_bottom_strip
      rw [hfold, h1]
      rfl
    · intro j hj sj hsj
      rcases lt_trichotomy j i with hlt | heq | hgt2
      · exact le_of_lt (h4 j hlt sj hsj)
      · subst heq
        have : sj = si := Option.some.inj (hsj.symm.trans h2b)
        exact le_of_eq this
      · exact h5 j hj hgt2 sj hsj

/-- Claim C3: for at least two (pairwise-distinct) strips, `find_bottom_strip`
returns the strip whose best match score — the minimum `rows_comparison`
between that strip's last pixel row and every other strip's first pixel row
(`bestMatchScore`) — is maximal; among ties, the strip encountered first in
iteration order wins (strict `>` against the running worst score). -/
theorem find_bottom_strip_spec (strips : List Strip) (h2 : 2 ≤ strips.length)
    (hnd : strips.Nodup) (hpx : ∀ s ∈ strips, s.pixels ≠ []) :
    ∃ (i : Nat) (hi : i < strips.length) (si : Int),
      find_bottom_strip strips = Except.ok (some (strips.get ⟨i, hi⟩)) ∧
      bestMatchScore strips (strips.get ⟨i, hi⟩) = some si ∧
      (∀ (j : Nat) (hj : j < strips.length) (sj : Int),
        bestMatchScore strips (strips.get ⟨j, hj⟩) = some sj → sj ≤ si) ∧
      (∀ (j : Nat) (hj : j < i) (sj : Int),
        bestMatchScore strips (strips.get ⟨j, Nat.lt_trans hj hi⟩) = some sj → sj < si) :=
  find_bottom_aux strips h2 hnd

/-- Claim C3, witness: two distinct one-row strips. -/
theorem find_bottom_strip_spec_witness :
    (2 ≤ ([⟨0, [[⟨0, 0, 0⟩]]⟩, ⟨1, [[⟨255, 255, 255⟩]]⟩] : List Strip).length ∧
      ([⟨0, [[⟨0, 0, 0⟩]]⟩, ⟨1, [[⟨255, 255, 255⟩]]⟩] : List Strip).Nodup ∧
      ∀ s ∈ ([⟨0, [[⟨0, 0, 0⟩]]⟩, ⟨1, [[⟨255, 255, 255⟩]]⟩] : List Strip), s.pixels ≠ []) ∧
    ∃ (i : Nat) (hi : i < ([⟨0, [[⟨0, 0, 0⟩]]⟩, ⟨1, [[⟨255, 255, 255⟩]]⟩] : List Strip).length)
      (si : Int),
      find_bottom_strip [⟨0, [[⟨0, 0, 0⟩]]⟩, ⟨1, [[⟨255, 255, 255⟩]]⟩] =
        Except.ok (some (([⟨0, [[⟨0, 0, 0⟩]]⟩, ⟨1, [[⟨255, 255, 255⟩]]⟩] : List Strip).get ⟨i, hi⟩)) ∧
      bestMatchScore [⟨0, [[⟨0, 0, 0⟩]]⟩, ⟨1, [[⟨255, 255, 255⟩]]⟩]
          (([⟨0, [[⟨0, 0, 0⟩]]⟩, ⟨1, [[⟨255, 255, 255⟩]]⟩] : List Strip).get ⟨i, hi⟩) = some si ∧
      (∀ (j : Nat) (hj : j < ([⟨0, [[⟨0, 0, 0⟩]]⟩, ⟨1, [[⟨255, 255, 255⟩]]⟩] : List Strip).length)
        (sj : Int),
        bestMatchScore [⟨0, [[⟨0, 0, 0⟩]]⟩, ⟨1, [[⟨255, 255, 255⟩]]⟩]
            (([⟨0, [[⟨0, 0, 0⟩]]⟩, ⟨1, [[⟨255, 255, 255⟩]]⟩] : List Strip).get ⟨j, hj⟩) = some sj →
          sj ≤ si) ∧
      (∀ (j : Nat) (hj : j < i) (sj : Int),
        bestMatchScore [⟨0, [[⟨0, 0, 0⟩]]⟩, ⟨1, [[⟨255, 255, 255⟩]]⟩]
            (([⟨0, [[⟨0, 0, 0⟩]]⟩, ⟨1, [[⟨255, 255, 255⟩]]⟩] : List Strip).get
              ⟨j, Nat.lt_trans hj hi⟩) = some sj → sj < si) :=
  ⟨⟨by decide, by decide, by decide⟩,
   find_bottom_strip_spec [⟨0, [[⟨0, 0, 0⟩]]⟩, ⟨1, [[⟨255, 255, 255⟩]]⟩]
     (by decide) (by decide) (by decide)⟩

/-- A non-empty pool always yields a match, and the match is drawn from the
pool. -/
theorem find_most_mem (cur : Strip) (pool : List Strip) (hne : pool ≠ []) :
    ∃ m, find_most_similar_strip_for_upwards cur pool = some m ∧ m ∈ pool := by
  obtain ⟨i, hi, heq, _, _⟩ := find_most_aux cur pool hne
  exact ⟨_, heq, List.get_mem pool i hi⟩

/-- The `while image_strips:` loop of `build_from_bottom`.  The linked list's
head-to-tail reading is `top :: acc`; `pool` is the caller's strip list, from
which each placed strip is removed (`list.remove`, modelled by `List.erase`).
`fuel` only bounds the number of iterations (each iteration removes one pool
member, so the initial pool length is enough; see `chainUp_spec`). -/
def chainUp : Nat → Strip → List Strip → List Strip → List Strip × List Strip
  | 0, top, acc, pool => (top :: acc, pool)
  | fuel + 1, top, acc, pool =>
    if pool.isEmpty then (top :: acc, pool)
    else
      match find_most_similar_strip_for_upwards top pool with
      | none => (top :: acc, pool)
      | some best_match => chainUp fuel best_match (top :: acc) (pool.erase best_match)

/-- `build_from_bottom(image_strips)`: find and remove the bottom strip, then
keep prepending best matches until the pool is empty.  The returned pair is
(`linked.to_list()`, final state of the caller's mutated `image_strips`).
`Except.error` models the `ValueError` raised either inside
`find_bottom_strip` (`min()` of an empty sequence) or by
`image_strips.remove(None)` when `find_bottom_strip` returns `None` on an
empty input. -/
def build_from_bottom (image_strips : List Strip) : Except Unit (List Strip × List Strip) :=
  match find_bottom_strip image_strips with
  | Except.error e => Except.error e
  | Except.ok none => Except.error ()
  | Except.ok (some bottom_strip) =>
    let remaining := image_strips.erase bottom_strip
    Except.ok (chainUp remaining.length bottom_strip [] remaining)

/-- Given enough fuel, the chaining loop drains the pool completely and its
output is a permutation of `top :: acc ++ pool`. -/
theorem chainUp_spec : ∀ (fuel : Nat) (top : Strip) (acc pool : List Strip),
    pool.length ≤ fuel →
    (chainUp fuel top acc pool).2 = [] ∧
    List.Perm (chainUp fuel top acc pool).1 (top :: (acc ++ pool)) := by
  intro fuel
  induction fuel with
  | zero =>
    intro top acc pool hlen
    have hpool : pool = [] := List.eq_nil_of_length_eq_zero (Nat.le_zero.mp hlen)
    subst hpool
    simp [chainUp]
  | succ fuel ih =>
    intro top acc pool hlen
    by_cases hpool : pool = []
    · subst hpool
      simp [chainUp]
    · have hempty : pool.isEmpty = false := by
        simpa [List.isEmpty_iff] using hpool
      obtain ⟨m, hm, hmem⟩ := find_most_mem top pool hpool
      have herase : (pool.erase m).length ≤ fuel := by
        have h1 := List.length_erase_of_mem hmem
        have h2 : 1 ≤ pool.length := List.length_pos.mpr hpool
        omega
      have hrec := ih m (top :: acc) (pool.erase m) herase
      have hstep : chainUp (fuel + 1) top acc pool =
          chainUp fuel m (top :: acc) (pool.erase m) := by
        simp [chainUp, hempty, hm]
      rw [hstep]
      refine ⟨hrec.1, ?_⟩
      refine hrec.2.trans ?_
      have p1 : List.Perm (m :: ((top :: acc) ++ pool.erase m))
          ((top :: acc) ++ m :: pool.erase m) := List.perm_middle.symm
      have p2 : List.Perm ((top :: acc) ++ m :: pool.erase m) ((top :: acc) ++ pool) :=
        ((List.perm_cons_erase hmem).symm).append_left (top :: acc)
      exact p1.trans p2

/-- On at least two pairwise-distinct strips, `build_from_bottom` succeeds,
drains the caller's list and returns a permutation of the input. -/
theorem build_from_bottom_aux (strips : List Strip) (h2 : 2 ≤ strips.length)
    (hnd : strips.Nodup) :
    ∃ ordered : List Strip,
      build_from_bottom strips = Except.ok (ordered, []) ∧ List.Perm ordered strips := by
  obtain ⟨i, hi, si, hfb, _, _, _⟩ := find_bottom_aux strips h2 hnd
  have hmem := List.get_mem strips i hi
  have hchain := chainUp_spec (strips.erase (strips.get ⟨i, hi⟩)).length
    (strips.get ⟨i, hi⟩) [] (strips.erase (strips.get ⟨i, hi⟩)) (le_refl _)
  unfold build_from_bottom
  rw [hfb]
  refine ⟨(chainUp (strips.erase (strips.get ⟨i, hi⟩)).length (strips.get ⟨i, hi⟩) []
    (strips.erase (strips.get ⟨i, hi⟩))).1, ?_, ?_⟩
  · have hpair : chainUp (strips.erase (strips.get ⟨i, hi⟩)).length (strips.get ⟨i, hi⟩) []
        (strips.erase (strips.get ⟨i, hi⟩)) =
        ((chainUp (strips.erase (strips.get ⟨i, hi⟩)).length (strips.get ⟨i, hi⟩) []
          (strips.erase (strips.get ⟨i, hi⟩))).1, []) :=
      Prod.ext_iff.mpr ⟨rfl, hchain.1⟩
    exact congrArg Except.ok hpair
  · exact hchain.2.trans (List.perm_cons_erase hmem).symm

/-- Claim C1: for at least two pairwise-distinct strips (with pixel rows),
`build_from_bottom` succeeds, and every input strip appears exactly once in
the returned ordered list (a permutation of the input; the early-exit branch
is unreachable because the upward matcher always yields a candidate on a
non-empty pool). -/
theorem build_from_bottom_exactly_once (strips : List Strip) (h2 : 2 ≤ strips.length)
    (hnd : strips.Nodup) (hpx : ∀ s ∈ strips, s.pixels ≠ []) :
    ∃ ordered : List Strip,
      build_from_bottom strips = Except.ok (ordered, []) ∧
      List.Perm ordered strips ∧
      ∀ s ∈ strips, ordered.count s = 1 := by
  obtain ⟨ordered, hbuild, hperm⟩ := build_from_bottom_aux strips h2 hnd
  refine ⟨ordered, hbuild, hperm, ?_⟩
  intro s hs
  rw [hperm.count_eq]
  exact List.count_eq_one_of_mem hnd hs

/-- Claim C1, witness: two distinct one-row strips. -/
theorem build_from_bottom_exactly_once_witness :
    (2 ≤ ([⟨0, [[⟨0, 0, 0⟩]]⟩, ⟨1, [[⟨7, 7, 7⟩]]⟩] : List Strip).length ∧
      ([⟨0, [[⟨0, 0, 0⟩]]⟩, ⟨1, [[⟨7, 7, 7⟩]]⟩] : List Strip).Nodup ∧
      ∀ s ∈ ([⟨0, [[⟨0, 0, 0⟩]]⟩, ⟨1, [[⟨7, 7, 7⟩]]⟩] : List Strip), s.pixels ≠ []) ∧
    ∃ ordered : List Strip,
      build_from_bottom [⟨0, [[⟨0, 0, 0⟩]]⟩, ⟨1, [[⟨7, 7, 7⟩]]⟩] = Except.ok (ordered, []) ∧
      List.Perm ordered [⟨0, [[⟨0, 0, 0⟩]]⟩, ⟨1, [[⟨7, 7, 7⟩]]⟩] ∧
      ∀ s ∈ ([⟨0, [[⟨0, 0, 0⟩]]⟩, ⟨1, [[⟨7, 7, 7⟩]]⟩] : List Strip), ordered.count s = 1 :=
  ⟨⟨by decide, by decide, by decide⟩,
   build_from_bottom_exactly_once [⟨0, [[⟨0, 0, 0⟩]]⟩, ⟨1, [[⟨7, 7, 7⟩]]⟩]
     (by decide) (by decide) (by decide)⟩

/-- Claim C10: `build_from_bottom` consumes its input list in place (the
mutation is modelled by the returned final list state): after a run on at
least two pairwise-distinct strips, every strip has been moved into the
ordered result and the caller's list is left empty. -/
theorem build_from_bottom_empties_input (strips : List Strip) (h2 : 2 ≤ strips.length)
    (hnd : strips.Nodup) (hpx : ∀ s ∈ strips, s.pixels ≠ []) :
    ∃ ordered : List Strip,
      build_from_bottom strips = Except.ok (ordered, []) ∧
      ordered.length = strips.length := by
  obtain ⟨ordered, hbuild, hperm⟩ := build_from_bottom_aux strips h2 hnd
  exact ⟨ordered, hbuild, hperm.length_eq⟩

/-- Claim C10, witness: two distinct one-row strips. -/
theorem build_from_bottom_empties_input_witness :
    (2 ≤ ([⟨2, [[⟨0, 0, 0⟩]]⟩, ⟨3, [[⟨9, 9, 9⟩]]⟩] : List Strip).length ∧
      ([⟨2, [[⟨0, 0, 0⟩]]⟩, ⟨3, [[⟨9, 9, 9⟩]]⟩] : List Strip).Nodup ∧
      ∀ s ∈ ([⟨2, [[⟨0, 0, 0⟩]]⟩, ⟨3, [[⟨9, 9, 9⟩]]⟩] : List Strip), s.pixels ≠ []) ∧
    ∃ ordered : List Strip,
      build_from_bottom [⟨2, [[⟨0, 0, 0⟩]]⟩, ⟨3, [[⟨9, 9, 9⟩]]⟩] = Except.ok (ordered, []) ∧
      ordered.length = ([⟨2, [[⟨0, 0, 0⟩]]⟩, ⟨3, [[⟨9, 9, 9⟩]]⟩] : List Strip).length :=
  ⟨⟨by decide, by decide, by decide⟩,
   build_from_bottom_empties_input [⟨2, [[⟨0, 0, 0⟩]]⟩, ⟨3, [[⟨9, 9, 9⟩]]⟩]
     (by decide) (by decide) (by decide)⟩

/-- Claim C5, counterexample: on a single-strip input `build_from_bottom` does
not bypass the bottom-strip selector; the selector's inner `min()` ranges over
an empty sequence (there is no "other" strip) and the call fails — modelled as
`Except.error ()`, the image of Python's `ValueError` — instead of returning
the one-strip list the claim describes. -/
theorem build_from_bottom_single_strip_fails :
    build_from_bottom [⟨5, [[⟨1, 2, 3⟩]]⟩] = Except.error () := rfl

/-- Modelled from the spec: the external image collaborator's buffer —
fixed width and height plus row-major pixel storage with direct read/write
(`Image(width, height)`, `set_pixel`, `get_pixel`).  Pixel storage is
modelled as a total map from (row, col); out-of-range behaviour is not
specified by the spec and no verified statement relies on it. -/
structure ImageBuf where
  width : Nat
  height : Nat
  data : Nat → Nat → Pixel

/-- Modelled from the spec: `Image(width, height)` — a fresh buffer; the
initial pixel contents are unspecified, modelled as black. -/
def ImageBuf.new (width height : Nat) : ImageBuf :=
  ⟨width, height, fun _ _ => ⟨0, 0, 0⟩⟩

/-- Modelled from the spec: `image.set_pixel(row, col, p)` — direct write. -/
def ImageBuf.set_pixel (img : ImageBuf) (row col : Nat) (p : Pixel) : ImageBuf :=
  { img with data := fun r c => if r = row ∧ c = col then p else img.data r c }

/-- Modelled from the spec: `image.get_pixel(row, col)` — direct read. -/
def ImageBuf.get_pixel (img : ImageBuf) (row col : Nat) : Pixel := img.data row col

/-- The two inner `for` loops of `merge_ordered_strips`: copy `strip` into
`img` with its rows placed starting at vertical offset `offset`. -/
def copyStrip (img : ImageBuf) (offset : Nat) (strip : Strip) : ImageBuf :=
  (List.range strip.get_height).foldl (fun imgAcc row =>
    (List.range strip.get_width).foldl (fun imgAcc2 col =>
      imgAcc2.set_pixel (offset + row) col (strip.get_pixel row col)) imgAcc) img

/-- The outer loop body of `merge_ordered_strips`: copy one strip at the
running `current_height`, then advance it by the strip's height. -/
def mergeStep (acc : ImageBuf × Nat) (strip : Strip) : ImageBuf × Nat :=
  (copyStrip acc.1 acc.2 strip, acc.2 + strip.get_height)

/-- `merge_ordered_strips(ordered_strips)`: stack the strips top-to-bottom
into a fresh image of width `ordered_strips[0].get_width()` (reading
`ordered_strips[0]` needs a non-empty list in Python; the model's `headD`
default is never exercised by a verified statement) and height
`sum(strip.get_height() ...)`, starting from `current_height = 0`. -/
def merge_ordered_strips (ordered_strips : List Strip) : ImageBuf :=
  (ordered_strips.foldl mergeStep
    (ImageBuf.new (ordered_strips.headD ⟨0, []⟩).get_width
      ((ordered_strips.map Strip.get_height).sum), 0)).1

/-- A fold preserves any invariant preserved by its step function. -/
theorem foldl_preserve {α β : Type} (P : β → Prop) (f : β → α → β)
    (hf : ∀ b a, P b → P (f b a)) :
    ∀ (l : List α) (b : β), P b → P (l.foldl f b) := by
  intro l
  induction l with
  | nil => intro b hb; exact hb
  | cons a t ih =>
    intro b hb
    exact ih (f b a) (hf b a hb)

/-- Reading after the inner column loop: row `offset + row` is overwritten up
to column `w`; everything else is unchanged. -/
theorem rowFold_get (s : Strip) (offset row : Nat) :
    ∀ (w : Nat) (img : ImageBuf) (r c : Nat),
    ((List.range w).foldl (fun imgAcc2 col =>
        imgAcc2.set_pixel (offset + row) col (s.get_pixel row col)) img).get_pixel r c =
      if r = offset + row ∧ c < w then s.get_pixel row c else img.get_pixel r c := by
  intro w
  induction w with
  | zero =>
    intro img r c
    have hnot : ¬(r = offset + row ∧ c < 0) := by omega
    simp [hnot]
  | succ w ih =>
    intro w2img r c
    rw [List.range_succ, List.foldl_append]
    simp only [List.foldl_cons, List.foldl_nil]
    have hset : ∀ im : ImageBuf,
        (im.set_pixel (offset + row) w (s.get_pixel row w)).get_pixel r c =
          if r = offset + row ∧ c = w then s.get_pixel row w else im.get_pixel r c := fun im => rfl
    rw [hset, ih w2img r c]
    by_cases h1 : r = offset + row
    · by_cases h2 : c = w
      · subst h2
        simp [h1]
      · by_cases h3 : c < w
        · have h4 : c < w + 1 := by omega
          simp [h1, h2, h3, h4]
        · have h4 : ¬(c < w + 1) := by omega
          simp [h1, h2, h3, h4]
    · simp [h1]

/-- Reading after the row loop over the first `n` rows of `strip`. -/
theorem rangeFold_get (s : Strip) (offset : Nat) :
    ∀ (n : Nat) (img : ImageBuf) (r c : Nat),
    ((List.range n).foldl (fun imgAcc row =>
        (List.range s.get_width).foldl (fun imgAcc2 col =>
          imgAcc2.set_pixel (offset + row) col (s.get_pixel row col)) imgAcc) img).get_pixel r c =
      if offset ≤ r ∧ r < offset + n ∧ c < s.get_width
      then s.get_pixel (r - offset) c else img.get_pixel r c := by
  intro n
  induction n with
  | zero =>
    intro img r c
    simp only [List.range_zero, List.foldl_nil]
    have hnot : ¬(offset ≤ r ∧ r < offset + 0 ∧ c < s.get_width) := by omega
    rw [if_neg hnot]
  | succ n ih =>
    intro img r c
    rw [List.range_succ, List.foldl_append]
    simp only [List.foldl_cons, List.foldl_nil]
    rw [rowFold_get s offset n s.get_width _ r c, ih img r c]
    by_cases h1 : r = offset + n ∧ c < s.get_width
    · have hnot : ¬(offset ≤ r ∧ r < offset + n ∧ c < s.get_width) := by omega
      have hyes : offset ≤ r ∧ r < offset + (n + 1) ∧ c < s.get_width := by omega
      have hsub : r - offset = n := by omega
      rw [if_pos h1, if_pos hyes, hsub]
    · rw [if_neg h1]
      by_cases h2 : offset ≤ r ∧ r < offset + n ∧ c < s.get_width
      · have hyes : offset ≤ r ∧ r < offset + (n + 1) ∧ c < s.get_width := by omega
        rw [if_pos h2, if_pos hyes]
      · have hnot : ¬(offset ≤ r ∧ r < offset + (n + 1) ∧ c < s.get_width) := by omega
        rw [if_neg h2, if_neg hnot]

/-- Reading from `copyStrip`: coordinates inside the copied region read the
strip; everything else reads the underlying image. -/
theorem copyStrip_get_pixel (img : ImageBuf) (offset : Nat) (s : Strip) (r c : Nat) :
    (copyStrip img offset s).get_pixel r c =
      if offset ≤ r ∧ r < offset + s.get_height ∧ c < s.get_width
      then s.get_pixel (r - offset) c else img.get_pixel r c :=
  rangeFold_get s offset s.get_height img r c

theorem copyStrip_width (img : ImageBuf) (offset : Nat) (s : Strip) :
    (copyStrip img offset s).width = img.width := by
  unfold copyStrip
  exact foldl_preserve (fun b => b.width = img.width)
    (fun imgAcc row => (List.range s.get_width).foldl
      (fun imgAcc2 col => imgAcc2.set_pixel (offset + row) col (s.get_pixel row col)) imgAcc)
    (fun b a hb =>
      foldl_preserve (fun b2 => b2.width = img.width)
        (fun imgAcc2 col => imgAcc2.set_pixel (offset + a) col (s.get_pixel a col))
        (fun b2 a2 hb2 => hb2) (List.range s.get_width) b hb)
    (List.range s.get_height) img rfl

theorem copyStrip_height (img : ImageBuf) (offset : Nat) (s : Strip) :
    (copyStrip img offset s).height = img.height := by
  unfold copyStrip
  exact foldl_preserve (fun b => b.height = img.height)
    (fun imgAcc row => (List.range s.get_width).foldl
      (fun imgAcc2 col => imgAcc2.set_pixel (offset + row) col (s.get_pixel row col)) imgAcc)
    (fun b a hb =>
      foldl_preserve (fun b2 => b2.height = img.height)
        (fun imgAcc2 col => imgAcc2.set_pixel (offset + a) col (s.get_pixel a col))
        (fun b2 a2 hb2 => hb2) (List.range s.get_width) b hb)
    (List.range s.get_height) img rfl

/-- Strips copied at or above the running height never touch rows below it. -/
theorem mergeFold_untouched : ∀ (l : List Strip) (img : ImageBuf) (h0 r c : Nat), r < h0 →
    ((l.foldl mergeStep (img, h0)).1).get_pixel r c = img.get_pixel r c := by
  intro l
  induction l with
  | nil => intro img h0 r c hr; rfl
  | cons s t ih =>
    intro img h0 r c hr
    simp only [List.foldl_cons, mergeStep]
    rw [ih (copyStrip img h0 s) (h0 + s.get_height) r c (by omega)]
    rw [copyStrip_get_pixel]
    have hnot : ¬(h0 ≤ r ∧ r < h0 + s.get_height ∧ c < s.get_width) := by omega
    rw [if_neg hnot]

/-- Cumulative vertical offset of strip `i`: the sum of the heights of the
strips before it. -/
def offsetIn (l : List Strip) (i : Nat) : Nat := ((l.take i).map Strip.get_height).sum

/-- Reading a pixel of strip `i` back out of the merged buffer. -/
theorem mergeFold_get : ∀ (l : List Strip) (img : ImageBuf) (h0 : Nat) (i : Nat)
    (hi : i < l.length) (r c : Nat),
    r < (l.get ⟨i, hi⟩).get_height → c < (l.get ⟨i, hi⟩).get_width →
    ((l.foldl mergeStep (img, h0)).1).get_pixel (h0 + offsetIn l i + r) c =
      (l.get ⟨i, hi⟩).get_pixel r c := by
  intro l
  induction l with
  | nil =>
    intro img h0 i hi
    exact absurd hi (by simp)
  | cons s t ih =>
    intro img h0 i hi r c hr hc
    simp only [List.foldl_cons, mergeStep]
    cases i with
    | zero =>
      have hr2 : r < s.get_height := hr
      have hc2 : c < s.get_width := hc
      have hoff : offsetIn (s :: t) 0 = 0 := rfl
      rw [hoff]
      rw [mergeFold_untouched t (copyStrip img h0 s) (h0 + s.get_height) (h0 + 0 + r) c
        (by omega)]
      rw [copyStrip_get_pixel]
      have hcond : h0 ≤ h0 + 0 + r ∧ h0 + 0 + r < h0 + s.get_height ∧ c < s.get_width :=
        ⟨by omega, by omega, hc2⟩
      rw [if_pos hcond]
      have hsub : h0 + 0 + r - h0 = r := by omega
      rw [hsub]
      rfl
    | succ i0 =>
      have hi0 : i0 < t.length := Nat.lt_of_succ_lt_succ hi
      have hoff : offsetIn (s :: t) (i0 + 1) = s.get_height + offsetIn t i0 := by
        simp [offsetIn]
      have hidx : h0 + offsetIn (s :: t) (i0 + 1) + r = h0 + s.get_height + offsetIn t i0 + r := by
        rw [hoff]
        omega
      rw [hidx]
      exact ih (copyStrip img h0 s) (h0 + s.get_height) i0 hi0 r c hr hc

theorem merge_width (ordered : List Strip) :
    (merge_ordered_strips ordered).width = (ordered.headD ⟨0, []⟩).get_width := by
  unfold merge_ordered_strips
  exact foldl_preserve
    (fun acc : ImageBuf × Nat => acc.1.width = (ordered.headD ⟨0, []⟩).get_width) _
    (fun b a hb => by
      simp only [mergeStep]
      rw [copyStrip_width]
      exact hb)
    _ _ rfl

theorem merge_height (ordered : List Strip) :
    (merge_ordered_strips ordered).height = (ordered.map Strip.get_height).sum := by
  unfold merge_ordered_strips
  exact foldl_preserve
    (fun acc : ImageBuf × Nat => acc.1.height = (ordered.map Strip.get_height).sum) _
    (fun b a hb => by
      simp only [mergeStep]
      rw [copyStrip_height]
      exact hb)
    _ _ rfl

/-- Claim C2: for a non-empty ordered list of strips of equal width `w`,
`merge_ordered_strips` returns an image of width `w` (the first strip's
width, which under the equal-width precondition is also the maximum strip
width), of height the sum of the strip heights, and in which every strip `i`
is copied pixel-exactly at its cumulative offset `offsetIn ordered i`. -/
theorem merge_ordered_strips_spec (ordered : List Strip) (w : Nat) (hne : ordered ≠ [])
    (hw : ∀ s ∈ ordered, s.get_width = w) (i : Nat) (hi : i < ordered.length) (r c : Nat)
    (hr : r < (ordered.get ⟨i, hi⟩).get_height) (hc : c < (ordered.get ⟨i, hi⟩).get_width) :
    (merge_ordered_strips ordered).width = w ∧
    (merge_ordered_strips ordered).height = (ordered.map Strip.get_height).sum ∧
    (merge_ordered_strips ordered).get_pixel (offsetIn ordered i + r) c =
      (ordered.get ⟨i, hi⟩).get_pixel r c := by
  refine ⟨?_, merge_height ordered, ?_⟩
  · rw [merge_width]
    obtain ⟨a, t, rfl⟩ := List.exists_cons_of_ne_nil hne
    exact hw a (List.mem_cons_self a t)
  · have hmain := mergeFold_get ordered
      (ImageBuf.new (ordered.headD ⟨0, []⟩).get_width ((ordered.map Strip.get_height).sum))
      0 i hi r c hr hc
    have hzero : (0 : Nat) + offsetIn ordered i + r = offsetIn ordered i + r := by omega
    rw [hzero] at hmain
    exact hmain

/-- Claim C2, witness: two strips of width 2 (heights 1 and 2); the pixel
read is from the second strip at offset 1. -/
theorem merge_ordered_strips_spec_witness :
    (([⟨20, [[⟨1, 1, 1⟩, ⟨2, 2, 2⟩]]⟩,
       ⟨21, [[⟨3, 3, 3⟩, ⟨4, 4, 4⟩], [⟨5, 5, 5⟩, ⟨6, 6, 6⟩]]⟩] : List Strip) ≠ [] ∧
      (∀ s ∈ ([⟨20, [[⟨1, 1, 1⟩, ⟨2, 2, 2⟩]]⟩,
        ⟨21, [[⟨3, 3, 3⟩, ⟨4, 4, 4⟩], [⟨5, 5, 5⟩, ⟨6, 6, 6⟩]]⟩] : List Strip),
        s.get_width = 2)) ∧
    (merge_ordered_strips [⟨20, [[⟨1, 1, 1⟩, ⟨2, 2, 2⟩]]⟩,
        ⟨21, [[⟨3, 3, 3⟩, ⟨4, 4, 4⟩], [⟨5, 5, 5⟩, ⟨6, 6, 6⟩]]⟩]).width = 2 ∧
    (merge_ordered_strips [⟨20, [[⟨1, 1, 1⟩, ⟨2, 2, 2⟩]]⟩,
        ⟨21, [[⟨3, 3, 3⟩, ⟨4, 4, 4⟩], [⟨5, 5, 5⟩, ⟨6, 6, 6⟩]]⟩]).height =
      (([⟨20, [[⟨1, 1, 1⟩, ⟨2, 2, 2⟩]]⟩,
        ⟨21, [[⟨3, 3, 3⟩, ⟨4, 4, 4⟩], [⟨5, 5, 5⟩, ⟨6, 6, 6⟩]]⟩] : List Strip).map
          Strip.get_height).sum ∧
    (merge_ordered_strips [⟨20, [[⟨1, 1, 1⟩, ⟨2, 2, 2⟩]]⟩,
        ⟨21, [[⟨3, 3, 3⟩, ⟨4, 4, 4⟩], [⟨5, 5, 5⟩, ⟨6, 6, 6⟩]]⟩]).get_pixel
        (offsetIn [⟨20, [[⟨1, 1, 1⟩, ⟨2, 2, 2⟩]]⟩,
          ⟨21, [[⟨3, 3, 3⟩, ⟨4, 4, 4⟩], [⟨5, 5, 5⟩, ⟨6, 6, 6⟩]]⟩] 1 + 0) 1 =
      (([⟨20, [[⟨1, 1, 1⟩, ⟨2, 2, 2⟩]]⟩,
        ⟨21, [[⟨3, 3, 3⟩, ⟨4, 4, 4⟩], [⟨5, 5, 5⟩, ⟨6, 6, 6⟩]]⟩] : List Strip).get
          ⟨1, by decide⟩).get_pixel 0 1 :=
  ⟨⟨by decide, by decide⟩,
   merge_ordered_strips_spec
     [⟨20, [[⟨1, 1, 1⟩, ⟨2, 2, 2⟩]]⟩, ⟨21, [[⟨3, 3, 3⟩, ⟨4, 4, 4⟩], [⟨5, 5, 5⟩, ⟨6, 6, 6⟩]]⟩]
     2 (by decide) (by decide) 1 (by decide) 0 1 (by decide) (by decide)⟩

/-- Claim C5, amended: on a single-strip input `build_from_bottom` does not
bypass the selector — the run fails with the modelled `ValueError`
(`Except.error ()`), because `find_bottom_strip` takes `min()` over an empty
candidate sequence; and `merge_ordered_strips` applied to a one-strip list
yields an image observationally equal to the strip (same width, height, and
pixels at every valid coordinate). -/
theorem build_from_bottom_single_strip (s : Strip) :
    build_from_bottom [s] = Except.error () ∧
    (merge_ordered_strips [s]).width = s.get_width ∧
    (merge_ordered_strips [s]).height = s.get_height ∧
    ∀ r c : Nat, r < s.get_height → c < s.get_width →
      (merge_ordered_strips [s]).get_pixel r c = s.get_pixel r c := by
  refine ⟨?_, ?_, ?_, ?_⟩
  · have hbs : bestMatchScore [s] s = none := by
      unfold bestMatchScore
      have hfil : ([s].filter (fun other => other ≠ s)) = [] := by
        simp [List.filter]
      rw [hfil]
      rfl
    unfold build_from_bottom find_bottom_strip
    simp only [List.foldl_cons, List.foldl_nil, selectStep, hbs]
    rfl
  · rw [merge_width]
    rfl
  · rw [merge_height]
    simp [Strip.get_height]
  · intro r c hr hc
    have hmain := mergeFold_get [s]
      (ImageBuf.new (([s] : List Strip).headD ⟨0, []⟩).get_width
        ((([s] : List Strip).map Strip.get_height).sum))
      0 0 (by simp) r c hr hc
    have hzero : (0 : Nat) + offsetIn [s] 0 + r = r := by
      simp [offsetIn]
    rw [hzero] at hmain
    exact hmain

/-- Claim C5, witness: a concrete single-strip input. -/
theorem build_from_bottom_single_strip_witness :
    build_from_bottom [⟨6, [[⟨4, 5, 6⟩]]⟩] = Except.error () ∧
    (merge_ordered_strips [⟨6, [[⟨4, 5, 6⟩]]⟩]).width = (⟨6, [[⟨4, 5, 6⟩]]⟩ : Strip).get_width ∧
    (merge_ordered_strips [⟨6, [[⟨4, 5, 6⟩]]⟩]).height = (⟨6, [[⟨4, 5, 6⟩]]⟩ : Strip).get_height ∧
    (merge_ordered_strips [⟨6, [[⟨4, 5, 6⟩]]⟩]).get_pixel 0 0 =
      (⟨6, [[⟨4, 5, 6⟩]]⟩ : Strip).get_pixel 0 0 :=
  ⟨(build_from_bottom_single_strip ⟨6, [[⟨4, 5, 6⟩]]⟩).1,
   (build_from_bottom_single_strip ⟨6, [[⟨4, 5, 6⟩]]⟩).2.1,
   (build_from_bottom_single_strip ⟨6, [[⟨4, 5, 6⟩]]⟩).2.2.1,
   (build_from_bottom_single_strip ⟨6, [[⟨4, 5, 6⟩]]⟩).2.2.2 0 0 (by decide) (by decide)⟩

/-- The whole pipeline as run by `main` (minus file I/O): order the strips
with `build_from_bottom`, then composite them with `merge_ordered_strips`. -/
def reconstruct_pipeline (image_strips : List Strip) : Except Unit ImageBuf :=
  match build_from_bottom image_strips with
  | Except.error e => Except.error e
  | Except.ok (ordered, _) => Except.ok (merge_ordered_strips ordered)

/-- Bit-identity of two pipeline outcomes: both fail, or both produce images
agreeing in width, height and every pixel. -/
def imagesBitIdentical : Except Unit ImageBuf → Except Unit ImageBuf → Prop
  | Except.ok img1, Except.ok img2 =>
      img1.width = img2.width ∧ img1.height = img2.height ∧
      ∀ r c : Nat, img1.get_pixel r c = img2.get_pixel r c
  | Except.error _, Except.error _ => True
  | _, _ => False

/-- Claim C8: re-running the pipeline on the same collection in the same
iteration order yields a bit-identical composited image.  In this pure
embedding the pipeline is a function of the input list alone (no hidden
state, randomness or iteration-order nondeterminism), so the two runs agree
bitwise. -/
theorem reconstruct_pipeline_rerun (image_strips : List Strip) :
    imagesBitIdentical (reconstruct_pipeline image_strips)
      (reconstruct_pipeline image_strips) := by
  cases h : reconstruct_pipeline image_strips with
  | error e => exact trivial
  | ok img => exact ⟨rfl, rfl, fun r c => rfl⟩
